import Mathlib

/-!
Verification of the `recsystem` PageRank application (`src/week5/app.js`).

The JavaScript application is shallowly embedded:

* JS strings are modelled as `List Char`; the string operations used by the
  code (`trim`, `split`, the `Number(...)` coercion) are given executable
  character-level models below.
* JS numbers are modelled as `Int` where they are node identifiers and as `ℚ`
  where they are scores or parameters.
* The JS object used as an adjacency list / score map is modelled as an
  association list `List (Int × _)` in key-insertion order.
* The PageRank engine function `computePageRank` called at `app.js:188` is not
  part of the repository sources; it is modelled from the specification
  (see its doc comment).
-/

namespace RecSystem

/-- Model of JS `String.prototype.trim`: drop leading and trailing whitespace.
(JS trims the full Unicode whitespace class; the inputs of interest here only
use ASCII whitespace.) -/
def trimChars (s : List Char) : List Char :=
  ((s.dropWhile Char.isWhitespace).reverse.dropWhile Char.isWhitespace).reverse

/-- Model of JS `String.prototype.split` with a one-character separator:
`"".split(c) = [""]`, and each separator occurrence starts a new field. -/
def splitOnChar (c : Char) : List Char → List (List Char)
  | [] => [[]]
  | x :: xs =>
    match splitOnChar c xs with
    | [] => [[]]
    | y :: ys => if x = c then [] :: y :: ys else (x :: y) :: ys

/-- Digits-only string to a natural number; `none` when empty or any
non-digit occurs. -/
def digitsToNat (l : List Char) : Option Nat :=
  if l ≠ [] ∧ l.all Char.isDigit then
    some (l.foldl (fun a c => a * 10 + (c.toNat - 48)) 0)
  else
    none

/-- Model of the JS `Number(...)` string coercion as applied to the CSV fields
(`app.js:149`): surrounding whitespace is trimmed, the empty string coerces to
`0`, and an optionally signed decimal-integer literal coerces to its value.
Every other string is treated as `NaN` (`none`).  (JS `Number` additionally
accepts fractional, exponent, hex/octal/binary and `Infinity` forms, which the
integer-identifier data format does not use; all parse-level theorems below are
stated for an arbitrary coercion function, so they do not depend on this
restriction.) -/
def jsNum (s : List Char) : Option Int :=
  match trimChars s with
  | [] => some 0
  | c :: rest =>
    if c = '-' then (digitsToNat rest).map (fun n => -(n : Int))
    else if c = '+' then (digitsToNat rest).map (fun n => (n : Int))
    else (digitsToNat (c :: rest)).map (fun n => (n : Int))

/-- Association-list lookup, modelling JS object property access (keys are
unique in the objects the code builds, and lookup returns the first match). -/
def alookup {β : Type} : List (Int × β) → Int → Option β
  | [], _ => none
  | p :: rest, k => if p.1 = k then some p.2 else alookup rest k

/-- The key list of an adjacency object. -/
def keys {β : Type} (adj : List (Int × β)) : List Int := adj.map Prod.fst

/-- Model of `adjacencyList[v] || []` — a node's neighbor list, empty when absent. -/
def nbrs (adj : List (Int × List Int)) (v : Int) : List Int :=
  (alookup adj v).getD []

/-- The graph record returned by `parseCSVToGraph` (`app.js:172-176`); the
`nodes` array of `{id}` objects is modelled by the list of the ids. -/
structure Graph where
  nodes : List Int
  edges : List (Int × Int)
  adjacencyList : List (Int × List Int)

/-- One line of the CSV: `line.split(',').map(Number)` destructured into its
first two entries (`app.js:149`); the line yields an edge exactly when both are
non-`NaN` (`app.js:150`).  A missing second field destructures to `undefined`,
and `Number(undefined)` is `NaN`, hence the `Option.bind`. -/
def parseLine (num : List Char → Option Int) (line : List Char) :
    Option (Int × Int) :=
  let fields := splitOnChar ',' line
  match fields[0]?.bind num, fields[1]?.bind num with
  | some s, some t => some (s, t)
  | _, _ => none

/-- JS `Set.prototype.add`: append if not yet present (insertion order kept). -/
def insertNew (x : Int) (xs : List Int) : List Int :=
  if x ∈ xs then xs else xs ++ [x]

/-- The body of the first loop of `parseCSVToGraph` (`app.js:148-155`): a
well-formed line appends its edge and adds both endpoints to the node set; any
other line is skipped. -/
def collectStep (num : List Char → Option Int)
    (acc : List (Int × Int) × List Int) (line : List Char) :
    List (Int × Int) × List Int :=
  match parseLine num line with
  | some (s, t) => (acc.1 ++ [(s, t)], insertNew t (insertNew s acc.2))
  | none => acc

/-- The first loop of `parseCSVToGraph` (`app.js:147-155`): collect the edge
list and the node set from the lines. -/
def collectLines (num : List Char → Option Int) (lines : List (List Char)) :
    List (Int × Int) × List Int :=
  lines.foldl (collectStep num) ([], [])

/-- The guarded push `if (adjacencyList[s] && !adjacencyList[s].includes(t)) adjacencyList[s].push(t)`
(`app.js:164-169` and `app.js:400-405`): append `t` to the entry of key `s`
when that entry exists and does not yet contain `t`.  (An empty JS array is
truthy, so the first conjunct is exactly key-existence.) -/
def pushNeighbor (adj : List (Int × List Int)) (s t : Int) :
    List (Int × List Int) :=
  adj.map (fun p => if p.1 = s ∧ t ∉ p.2 then (p.1, p.2 ++ [t]) else p)

/-- Both directed pushes performed per edge (`app.js:163-170`). -/
def addEdge (adj : List (Int × List Int)) (s t : Int) :
    List (Int × List Int) :=
  pushNeighbor (pushNeighbor adj s t) t s

/-- The method `parseCSVToGraph` (`app.js:143-177`), parameterised by the field-to-number
coercion `num` (JS `Number`, modelled by `jsNum`).  `Array.from(nodes).sort((a,b)=>a-b)`
is a stable numeric sort of the deduplicated node list; since the list is
duplicate-free the result is the unique ascending ordering, modelled by
`insertionSort`. -/
def parseCSVToGraph (num : List Char → Option Int) (csvText : List Char) :
    Graph :=
  let lines := splitOnChar '\n' (trimChars csvText)
  let collected := collectLines num lines
  let sortedNodes := List.insertionSort (fun a b : Int => a ≤ b) collected.2
  let adj0 := sortedNodes.map (fun n => (n, ([] : List Int)))
  let adj := collected.1.foldl (fun a e => addEdge a e.1 e.2) adj0
  { nodes := sortedNodes, edges := collected.1, adjacencyList := adj }

/-- The method `connectNodes` (`app.js:395-405`): push the edge and update both adjacency
entries.  When a key is missing, JS throws a `TypeError` at the `includes`
call of that entry and leaves it absent; the model's `pushNeighbor` likewise
leaves the adjacency unchanged for a missing key, so the adjacency state after
the call coincides with the JS state. -/
def connectNodes (g : Graph) (sourceId targetId : Int) : Graph :=
  { g with
    edges := g.edges ++ [(sourceId, targetId)]
    adjacencyList :=
      pushNeighbor (pushNeighbor g.adjacencyList sourceId targetId)
        targetId sourceId }

/-- Entry-level symmetry of an adjacency object (spec §3): every identifier
`b` stored in a node's neighbor list has that node in `b`'s own neighbor
list. -/
def SymmAdj (adj : List (Int × List Int)) : Prop :=
  ∀ p ∈ adj, ∀ b ∈ p.2, p.1 ∈ nbrs adj b

/-- Every stored neighbor list is duplicate-free (spec §3). -/
def NodupLists (adj : List (Int × List Int)) : Prop :=
  ∀ p ∈ adj, p.2.Nodup

/-- No node appears in its own stored neighbor list (spec §3). -/
def NoSelfLoops (adj : List (Int × List Int)) : Prop :=
  ∀ p ∈ adj, p.1 ∉ p.2

instance (adj : List (Int × List Int)) : Decidable (SymmAdj adj) :=
  inferInstanceAs (Decidable (∀ p ∈ adj, ∀ b ∈ p.2, p.1 ∈ nbrs adj b))

instance (adj : List (Int × List Int)) : Decidable (NodupLists adj) :=
  inferInstanceAs (Decidable (∀ p ∈ adj, p.2.Nodup))

instance (adj : List (Int × List Int)) : Decidable (NoSelfLoops adj) :=
  inferInstanceAs (Decidable (∀ p ∈ adj, p.1 ∉ p.2))

/-- Descending-score comparison used by
`recommendations.sort((a, b) => b.score - a.score)` (`app.js:392`). -/
def scoreDesc (a b : Int × ℚ) : Prop := b.2 ≤ a.2

instance : DecidableRel scoreDesc := fun a b =>
  inferInstanceAs (Decidable (b.2 ≤ a.2))

instance : IsTotal (Int × ℚ) scoreDesc := ⟨fun a b => le_total b.2 a.2⟩

instance : IsTrans (Int × ℚ) scoreDesc := ⟨fun _ _ _ h1 h2 => le_trans h2 h1⟩

/-- The method `getRecommendations` (`app.js:374-393`).  The stored score object is
modelled as `Option (Int → ℚ)`: `null` when PageRank has not been computed,
otherwise a total lookup function (the engine supplies a score for every graph
node).  `currentFriends` is the JS `Set` of the node's neighbors plus the node
itself; membership tests are order-insensitive, so a list with the same
elements models it.  JS `Array.prototype.sort` is a stable sort; any sort
agreeing with the comparator has the same sorted-permutation properties, and
`insertionSort` is used here. -/
def getRecommendations (g : Graph) (pageRankScores : Option (Int → ℚ))
    (nodeId : Int) : List (Int × ℚ) :=
  match pageRankScores with
  | none => []
  | some f =>
    let currentFriends := nodeId :: nbrs g.adjacencyList nodeId
    let recommendations :=
      (g.nodes.filter (fun v => decide (v ∉ currentFriends))).map
        (fun v => (v, f v))
    (List.insertionSort scoreDesc recommendations).take 3

/-- The engine's failure taxonomy (spec §7): a single `InvalidInput` class. -/
inductive PRError where
  | invalidInput
deriving DecidableEq

/-- Score maps as returned by the engine: one entry per adjacency key. -/
abbrev ScoreList := List (Int × ℚ)

/-- Score lookup with JS-undefined read as `0` inside the engine's arithmetic
(every identifier actually looked up is a key of the map). -/
def scoreOf (m : ScoreList) (v : Int) : ℚ := (alookup m v).getD 0

/-- Spec §4.1 degree: `degree(u) = |neighbors(u)|`. -/
def degree (adj : List (Int × List Int)) (u : Int) : Nat := (nbrs adj u).length

/-- Modelled from the spec: the total score currently held by dangling nodes
(spec §4.1 step 3a, dangling-mass redistribution term). -/
def dangSum (adj : List (Int × List Int)) (old : ScoreList) : ℚ :=
  ((adj.filter (fun p => p.2.isEmpty)).map (fun p => scoreOf old p.1)).sum

/-- Modelled from the spec: one PageRank iteration (spec §4.1 step 3a).  The
engine source is not under `src/`; this follows the specified per-node formula
`newScore[v] = (1-d)/N + d * Σ_{u ∈ neighbors(v)} oldScore[u]/degree(u)`,
with a dangling node's entire score redistributed uniformly across all `N`
nodes, added into the damping term (the spec's conservation-preserving choice,
the one consistent with its §8 test properties).  All `newScore` values are
computed from the previous iteration's snapshot. -/
def pagerankStep (adj : List (Int × List Int)) (d : ℚ) (old : ScoreList) :
    ScoreList :=
  adj.map (fun p =>
    (p.1,
      (1 - d) / ((keys adj).length : ℚ) +
        d * ((p.2.map (fun u => scoreOf old u / (degree adj u : ℚ))).sum +
          dangSum adj old / ((keys adj).length : ℚ))))

/-- Proof-support view of a score list whose keys are exactly the adjacency
keys, holding value `σ v` at each key `v`; both the uniform initialisation and
every iterate of the engine have this shape. -/
def mapByKey (adj : List (Int × List Int)) (σ : Int → ℚ) : ScoreList :=
  adj.map (fun p => (p.1, σ p.1))

/-- The per-node value produced by one iteration from the snapshot
`mapByKey adj σ`, as a function of the node identifier (proof support). -/
def stepVal (adj : List (Int × List Int)) (d : ℚ) (σ : Int → ℚ) (v : Int) :
    ℚ :=
  (1 - d) / ((keys adj).length : ℚ) +
    d * (((nbrs adj v).map
        (fun u => scoreOf (mapByKey adj σ) u / (degree adj u : ℚ))).sum +
      dangSum adj (mapByKey adj σ) / ((keys adj).length : ℚ))

/-- Modelled from the spec: total absolute score change between iterations
(spec §4.1 step 3b), summed across all nodes. -/
def totalDiff (adj : List (Int × List Int)) (newS oldS : ScoreList) : ℚ :=
  (adj.map (fun p => |scoreOf newS p.1 - scoreOf oldS p.1|)).sum

/-- Modelled from the spec: the recommended convergence tolerance `1e-6`
(spec §4.1). -/
def tol : ℚ := 1 / 1000000

/-- Modelled from the spec: the iteration loop (spec §4.1 step 3): repeat up
to the iteration budget, stopping after applying an update whose total
absolute change is below the tolerance. -/
def pagerankLoop (adj : List (Int × List Int)) (d : ℚ) :
    Nat → ScoreList → ScoreList
  | 0, cur => cur
  | k + 1, cur =>
    let nxt := pagerankStep adj d cur
    if totalDiff adj nxt cur < tol then nxt else pagerankLoop adj d k nxt

/-- Modelled from the spec: the PageRank engine
`compute(adjacency, maxIterations, dampingFactor)` (spec §4.1), the global
`computePageRank` function invoked at `app.js:188` whose defining source file
is not part of the repository snapshot.  Validation (spec §4.1/§7): fail with
`InvalidInput` when `maxIterations <= 0`, when the damping factor is not in
`(0,1)`, or when some neighbor identifier is not a key; otherwise `N = 0`
returns the empty map and `N > 0` runs the iteration from the uniform
initialisation `1/N`. -/
def computePageRank (adj : List (Int × List Int)) (maxIterations : Int)
    (dampingFactor : ℚ) : Except PRError ScoreList :=
  if maxIterations ≤ 0 then .error .invalidInput
  else if ¬(0 < dampingFactor ∧ dampingFactor < 1) then .error .invalidInput
  else if ¬(∀ p ∈ adj, ∀ u ∈ p.2, u ∈ keys adj) then .error .invalidInput
  else if (keys adj).length = 0 then .ok []
  else
    .ok (pagerankLoop adj dampingFactor maxIterations.toNat
      (adj.map (fun p => (p.1, 1 / ((keys adj).length : ℚ)))))

/-- The mutable fields of the `PageRankApp` instance that the
`computePageRank` method (`app.js:179-204`) reads or writes. -/
structure AppState where
  graph : Graph
  pageRankScores : Option (Int → ℚ)
  selectedNode : Option Int
  isComputing : Bool

/-- The application's `computePageRank` method (`app.js:179-204`), named apart
from the engine function it awaits.  The outcome of the awaited engine call is
passed as a parameter (`.ok` with the score lookup, or `.error` when the call
throws).  Returns the new state together with whether the engine call was
reached.  The guard at `app.js:180` returns immediately when a computation is
in flight; on success the `try` block stores the fresh scores; on failure the
`catch` block only reports; the `finally` block clears `isComputing` on both
paths. -/
def appComputePageRank (s : AppState)
    (engineResult : Except PRError (Int → ℚ)) : AppState × Bool :=
  if s.isComputing then (s, false)
  else
    match engineResult with
    | .ok m => ({ s with pageRankScores := some m, isComputing := false }, true)
    | .error _ => ({ s with isComputing := false }, true)

/-! ## Association-list and neighbor-push lemmas -/

theorem alookup_cons {β : Type} (p : Int × β) (rest : List (Int × β))
    (v : Int) :
    alookup (p :: rest) v = if p.1 = v then some p.2 else alookup rest v := rfl

theorem pushNeighbor_cons (p : Int × List Int) (rest : List (Int × List Int))
    (s t : Int) :
    pushNeighbor (p :: rest) s t =
      (if p.1 = s ∧ t ∉ p.2 then (p.1, p.2 ++ [t]) else p) ::
        pushNeighbor rest s t := rfl

theorem alookup_pushNeighbor (adj : List (Int × List Int)) (s t v : Int) :
    alookup (pushNeighbor adj s t) v =
      (alookup adj v).map (fun l => if v = s ∧ t ∉ l then l ++ [t] else l) := by
  induction adj with
  | nil => rfl
  | cons p rest ih =>
    rw [pushNeighbor_cons]
    by_cases hp : p.1 = s ∧ t ∉ p.2
    · by_cases hv : p.1 = v
      · have hvs : v = s := hv.symm.trans hp.1
        simp [alookup_cons, hp, hv, hvs, hp.2]
      · have hsv : ¬(s = v) := fun h => hv (hp.1.trans h)
        simp [alookup_cons, hp, hv, hsv, ih]
    · by_cases hv : p.1 = v
      · have hns : ¬(v = s ∧ t ∉ p.2) := fun hc => hp ⟨hv.trans hc.1, hc.2⟩
        simp [alookup_cons, hp, hv, hns]
      · simp [alookup_cons, hp, hv, ih]

theorem alookup_eq_none_iff {β : Type} (adj : List (Int × β)) (v : Int) :
    alookup adj v = none ↔ v ∉ keys adj := by
  induction adj with
  | nil => simp [alookup, keys]
  | cons p rest ih =>
    rw [alookup_cons]
    by_cases hv : p.1 = v
    · simp [keys, hv]
    · rw [if_neg hv, ih]
      unfold keys
      simp only [List.map_cons, List.mem_cons]
      constructor
      · intro h hc
        rcases hc with hc | hc
        · exact hv hc.symm
        · exact h hc
      · intro h hc
        exact h (Or.inr hc)

theorem nbrs_pushNeighbor (adj : List (Int × List Int)) (s t v : Int) :
    nbrs (pushNeighbor adj s t) v =
      if v = s ∧ t ∉ nbrs adj v then
        (if v ∈ keys adj then nbrs adj v ++ [t] else nbrs adj v)
      else nbrs adj v := by
  unfold nbrs
  rw [alookup_pushNeighbor]
  cases hl : alookup adj v with
  | none =>
    have hnk : v ∉ keys adj := (alookup_eq_none_iff adj v).1 hl
    simp [hnk]
  | some l =>
    have hk : v ∈ keys adj := by
      by_contra hc
      rw [← alookup_eq_none_iff adj v] at hc
      simp [hl] at hc
    by_cases hc : v = s ∧ t ∉ l
    · have hks : s ∈ keys adj := hc.1 ▸ hk
      simp [hc, hk, hks]
    · simp [hc, hk]

theorem keys_pushNeighbor (adj : List (Int × List Int)) (s t : Int) :
    keys (pushNeighbor adj s t) = keys adj := by
  unfold keys pushNeighbor
  rw [List.map_map]
  refine List.map_congr_left ?_
  intro p _
  by_cases hp : p.1 = s ∧ t ∉ p.2 <;> simp [hp]

theorem keys_addEdge (adj : List (Int × List Int)) (s t : Int) :
    keys (addEdge adj s t) = keys adj := by
  unfold addEdge
  rw [keys_pushNeighbor, keys_pushNeighbor]

theorem mem_nbrs_pushNeighbor (adj : List (Int × List Int)) (s t v x : Int)
    (hs : s ∈ keys adj) :
    x ∈ nbrs (pushNeighbor adj s t) v ↔ x ∈ nbrs adj v ∨ (v = s ∧ x = t) := by
  rw [nbrs_pushNeighbor]
  by_cases hc : v = s ∧ t ∉ nbrs adj v
  · rw [if_pos hc, if_pos (by rw [hc.1]; exact hs)]
    simp [hc.1]
  · rw [if_neg hc]
    constructor
    · exact Or.inl
    · rintro (h | ⟨rfl, rfl⟩)
      · exact h
      · by_contra hx
        exact hc ⟨rfl, hx⟩

theorem mem_nbrs_addEdge (adj : List (Int × List Int)) (s t v x : Int)
    (hs : s ∈ keys adj) (ht : t ∈ keys adj) :
    x ∈ nbrs (addEdge adj s t) v ↔
      x ∈ nbrs adj v ∨ (v = s ∧ x = t) ∨ (v = t ∧ x = s) := by
  unfold addEdge
  rw [mem_nbrs_pushNeighbor _ t s v x (by rw [keys_pushNeighbor]; exact ht),
    mem_nbrs_pushNeighbor adj s t v x hs]
  tauto

theorem mem_pushNeighbor (adj : List (Int × List Int)) (s t : Int)
    (q : Int × List Int) (hq : q ∈ pushNeighbor adj s t) :
    ∃ p ∈ adj, q.1 = p.1 ∧
      (q.2 = p.2 ∨ (q.2 = p.2 ++ [t] ∧ p.1 = s ∧ t ∉ p.2)) := by
  unfold pushNeighbor at hq
  obtain ⟨p, hp, hq⟩ := List.mem_map.1 hq
  refine ⟨p, hp, ?_⟩
  by_cases hc : p.1 = s ∧ t ∉ p.2
  · rw [if_pos hc] at hq
    exact ⟨by rw [← hq], Or.inr ⟨by rw [← hq], hc.1, hc.2⟩⟩
  · rw [if_neg hc] at hq
    exact ⟨by rw [← hq], Or.inl (by rw [← hq])⟩

/-! ## Invariant preservation through edge insertion -/

theorem symmAdj_addEdge (adj : List (Int × List Int)) (s t : Int)
    (hsym : SymmAdj adj) (hs : s ∈ keys adj) (ht : t ∈ keys adj) :
    SymmAdj (addEdge adj s t) := by
  intro q hq b hb
  obtain ⟨q1, hq1, hkey1, hlist1⟩ := mem_pushNeighbor _ t s q hq
  obtain ⟨p, hp, hkey2, hlist2⟩ := mem_pushNeighbor adj s t q1 hq1
  rw [mem_nbrs_addEdge adj s t b q.1 hs ht]
  have hqp : q.1 = p.1 := hkey1.trans hkey2
  rcases hlist1 with h1 | ⟨h1, hq1t, hsq1⟩
  · rcases hlist2 with h2 | ⟨h2, hps, htp⟩
    · have hbp : b ∈ p.2 := by rw [← h2, ← h1]; exact hb
      exact Or.inl (hqp ▸ hsym p hp b hbp)
    · have hb' : b ∈ p.2 ++ [t] := by rw [← h2, ← h1]; exact hb
      rcases List.mem_append.1 hb' with hbp | hbt
      · exact Or.inl (hqp ▸ hsym p hp b hbp)
      · rw [List.mem_singleton] at hbt
        exact Or.inr (Or.inr ⟨hbt, hqp.trans hps⟩)
  · have hb' : b ∈ q1.2 ++ [s] := by rw [← h1]; exact hb
    rcases List.mem_append.1 hb' with hbq1 | hbs
    · rcases hlist2 with h2 | ⟨h2, hps, htp⟩
      · have hbp : b ∈ p.2 := by rw [← h2]; exact hbq1
        exact Or.inl (hqp ▸ hsym p hp b hbp)
      · have hb'' : b ∈ p.2 ++ [t] := by rw [← h2]; exact hbq1
        rcases List.mem_append.1 hb'' with hbp | hbt
        · exact Or.inl (hqp ▸ hsym p hp b hbp)
        · rw [List.mem_singleton] at hbt
          exact Or.inr (Or.inr ⟨hbt, hqp.trans hps⟩)
    · rw [List.mem_singleton] at hbs
      exact Or.inr (Or.inl ⟨hbs, hkey1.trans hq1t⟩)

theorem nodupLists_pushNeighbor (adj : List (Int × List Int)) (s t : Int)
    (h : NodupLists adj) : NodupLists (pushNeighbor adj s t) := by
  intro q hq
  obtain ⟨p, hp, _, hlist⟩ := mem_pushNeighbor adj s t q hq
  rcases hlist with h2 | ⟨h2, _, htp⟩
  · rw [h2]
    exact h p hp
  · rw [h2]
    simp [List.nodup_append, h p hp, htp]

theorem nodupLists_addEdge (adj : List (Int × List Int)) (s t : Int)
    (h : NodupLists adj) : NodupLists (addEdge adj s t) :=
  nodupLists_pushNeighbor _ t s (nodupLists_pushNeighbor adj s t h)

theorem noSelfLoops_pushNeighbor (adj : List (Int × List Int)) (s t : Int)
    (h : NoSelfLoops adj) (hst : s ≠ t) : NoSelfLoops (pushNeighbor adj s t) := by
  intro q hq
  obtain ⟨p, hp, hkey, hlist⟩ := mem_pushNeighbor adj s t q hq
  rcases hlist with h2 | ⟨h2, hps, _⟩
  · rw [hkey, h2]
    exact h p hp
  · rw [hkey, h2]
    intro hc
    rcases List.mem_append.1 hc with hc | hc
    · exact h p hp hc
    · rw [List.mem_singleton] at hc
      exact hst (hps.symm.trans hc)

theorem noSelfLoops_addEdge (adj : List (Int × List Int)) (s t : Int)
    (h : NoSelfLoops adj) (hst : s ≠ t) : NoSelfLoops (addEdge adj s t) :=
  noSelfLoops_pushNeighbor _ t s
    (noSelfLoops_pushNeighbor adj s t h hst) (Ne.symm hst)

theorem foldl_addEdge_invariants (edges : List (Int × Int)) :
    ∀ adj : List (Int × List Int),
      SymmAdj adj → NodupLists adj →
      (∀ e ∈ edges, e.1 ∈ keys adj ∧ e.2 ∈ keys adj) →
      SymmAdj (edges.foldl (fun a e => addEdge a e.1 e.2) adj) ∧
        NodupLists (edges.foldl (fun a e => addEdge a e.1 e.2) adj) ∧
        keys (edges.foldl (fun a e => addEdge a e.1 e.2) adj) = keys adj := by
  induction edges with
  | nil => exact fun adj h1 h2 _ => ⟨h1, h2, rfl⟩
  | cons e rest ih =>
    intro adj h1 h2 h3
    have he := h3 e (List.mem_cons_self ..)
    have step := ih (addEdge adj e.1 e.2)
      (symmAdj_addEdge _ _ _ h1 he.1 he.2)
      (nodupLists_addEdge _ _ _ h2)
      (fun e' he' => by
        rw [keys_addEdge]
        exact h3 e' (List.mem_cons_of_mem _ he'))
    rw [List.foldl_cons]
    exact ⟨step.1, step.2.1, step.2.2.trans (keys_addEdge adj e.1 e.2)⟩

theorem foldl_addEdge_noSelf (edges : List (Int × Int)) :
    ∀ adj : List (Int × List Int),
      NoSelfLoops adj → (∀ e ∈ edges, e.1 ≠ e.2) →
      NoSelfLoops (edges.foldl (fun a e => addEdge a e.1 e.2) adj) := by
  induction edges with
  | nil => exact fun adj h _ => h
  | cons e rest ih =>
    intro adj h1 h2
    rw [List.foldl_cons]
    exact ih (addEdge adj e.1 e.2)
      (noSelfLoops_addEdge _ _ _ h1 (h2 e (List.mem_cons_self ..)))
      (fun e' he' => h2 e' (List.mem_cons_of_mem _ he'))

/-! ## Collection-loop lemmas -/

theorem insertNew_mem_self (x : Int) (xs : List Int) : x ∈ insertNew x xs := by
  unfold insertNew
  split
  · assumption
  · simp

theorem insertNew_mem_of_mem (x y : Int) (xs : List Int) (h : y ∈ xs) :
    y ∈ insertNew x xs := by
  unfold insertNew
  split
  · exact h
  · simp [h]

theorem insertNew_nodup (x : Int) (xs : List Int) (h : xs.Nodup) :
    (insertNew x xs).Nodup := by
  unfold insertNew
  split
  · exact h
  · simp [List.nodup_append, h, *]

theorem foldl_collect_edges (num : List Char → Option Int)
    (lines : List (List Char)) :
    ∀ acc, (lines.foldl (collectStep num) acc).1 =
      acc.1 ++ lines.filterMap (parseLine num) := by
  induction lines with
  | nil =>
    intro acc
    simp
  | cons l rest ih =>
    intro acc
    rw [List.foldl_cons, ih]
    unfold collectStep
    cases hp : parseLine num l with
    | none => simp [hp]
    | some e =>
      cases e
      simp [hp]

theorem foldl_collect_nodes_mono (num : List Char → Option Int)
    (lines : List (List Char)) :
    ∀ acc x, x ∈ acc.2 → x ∈ (lines.foldl (collectStep num) acc).2 := by
  induction lines with
  | nil => exact fun _ _ h => h
  | cons l rest ih =>
    intro acc x hx
    rw [List.foldl_cons]
    refine ih _ x ?_
    unfold collectStep
    cases hp : parseLine num l with
    | none => exact hx
    | some e =>
      cases e
      exact insertNew_mem_of_mem _ _ _ (insertNew_mem_of_mem _ _ _ hx)

theorem foldl_collect_nodes_mem (num : List Char → Option Int)
    (lines : List (List Char)) :
    ∀ acc, ∀ line ∈ lines, ∀ s t, parseLine num line = some (s, t) →
      s ∈ (lines.foldl (collectStep num) acc).2 ∧
        t ∈ (lines.foldl (collectStep num) acc).2 := by
  induction lines with
  | nil =>
    intro acc line hline
    exact absurd hline (List.not_mem_nil line)
  | cons l rest ih =>
    intro acc line hline s t hparse
    rw [List.foldl_cons]
    rcases List.mem_cons.1 hline with rfl | hline
    · constructor
      · refine foldl_collect_nodes_mono num rest _ s ?_
        unfold collectStep
        rw [hparse]
        exact insertNew_mem_of_mem _ _ _ (insertNew_mem_self _ _)
      · refine foldl_collect_nodes_mono num rest _ t ?_
        unfold collectStep
        rw [hparse]
        exact insertNew_mem_self _ _
    · exact ih _ line hline s t hparse

theorem foldl_collect_nodes_nodup (num : List Char → Option Int)
    (lines : List (List Char)) :
    ∀ acc, acc.2.Nodup → (lines.foldl (collectStep num) acc).2.Nodup := by
  induction lines with
  | nil => exact fun _ h => h
  | cons l rest ih =>
    intro acc hacc
    rw [List.foldl_cons]
    refine ih _ ?_
    unfold collectStep
    cases hp : parseLine num l with
    | none => exact hacc
    | some e =>
      cases e
      exact insertNew_nodup _ _ (insertNew_nodup _ _ hacc)

theorem foldl_collect_endpoints (num : List Char → Option Int)
    (lines : List (List Char)) :
    ∀ acc, (∀ e ∈ acc.1, e.1 ∈ acc.2 ∧ e.2 ∈ acc.2) →
      ∀ e ∈ (lines.foldl (collectStep num) acc).1,
        e.1 ∈ (lines.foldl (collectStep num) acc).2 ∧
          e.2 ∈ (lines.foldl (collectStep num) acc).2 := by
  induction lines with
  | nil => exact fun _ h => h
  | cons l rest ih =>
    intro acc hacc
    rw [List.foldl_cons]
    refine ih _ ?_
    unfold collectStep
    cases hp : parseLine num l with
    | none => exact hacc
    | some e =>
      cases e with
      | mk s t =>
        intro e' he'
        rcases List.mem_append.1 he' with he' | he'
        · have := hacc e' he'
          exact ⟨insertNew_mem_of_mem _ _ _ (insertNew_mem_of_mem _ _ _ this.1),
            insertNew_mem_of_mem _ _ _ (insertNew_mem_of_mem _ _ _ this.2)⟩
        · rw [List.mem_singleton] at he'
          rw [he']
          exact ⟨insertNew_mem_of_mem _ _ _ (insertNew_mem_self _ _),
            insertNew_mem_self _ _⟩

/-! ## Parse-level packaging lemmas -/

theorem parse_nodes_def (num : List Char → Option Int) (csvText : List Char) :
    (parseCSVToGraph num csvText).nodes =
      List.insertionSort (fun a b : Int => a ≤ b)
        (collectLines num (splitOnChar '\n' (trimChars csvText))).2 := rfl

theorem parse_edges_def (num : List Char → Option Int) (csvText : List Char) :
    (parseCSVToGraph num csvText).edges =
      (collectLines num (splitOnChar '\n' (trimChars csvText))).1 := rfl

theorem parse_adj_def (num : List Char → Option Int) (csvText : List Char) :
    (parseCSVToGraph num csvText).adjacencyList =
      (collectLines num (splitOnChar '\n' (trimChars csvText))).1.foldl
        (fun a e => addEdge a e.1 e.2)
        ((parseCSVToGraph num csvText).nodes.map
          (fun n => (n, ([] : List Int)))) := rfl

theorem adj0_symm (ns : List Int) :
    SymmAdj (ns.map (fun n => (n, ([] : List Int)))) := by
  intro p hp b hb
  obtain ⟨n, _, rfl⟩ := List.mem_map.1 hp
  exact absurd hb (List.not_mem_nil b)

theorem adj0_nodup (ns : List Int) :
    NodupLists (ns.map (fun n => (n, ([] : List Int)))) := by
  intro p hp
  obtain ⟨n, _, rfl⟩ := List.mem_map.1 hp
  exact List.nodup_nil

theorem adj0_noself (ns : List Int) :
    NoSelfLoops (ns.map (fun n => (n, ([] : List Int)))) := by
  intro p hp
  obtain ⟨n, _, rfl⟩ := List.mem_map.1 hp
  exact List.not_mem_nil n

theorem adj0_keys (ns : List Int) :
    keys (ns.map (fun n => (n, ([] : List Int)))) = ns := by
  unfold keys
  rw [List.map_map]
  rw [show (Prod.fst ∘ fun n : Int => (n, ([] : List Int))) = id from rfl,
    List.map_id]

theorem collect_mem_nodes (num : List Char → Option Int)
    (csvText : List Char) (x : Int)
    (h : x ∈ (collectLines num (splitOnChar '\n' (trimChars csvText))).2) :
    x ∈ (parseCSVToGraph num csvText).nodes := by
  rw [parse_nodes_def]
  exact (List.perm_insertionSort _ _).mem_iff.2 h

theorem parse_edge_endpoints (num : List Char → Option Int)
    (csvText : List Char) (e : Int × Int)
    (he : e ∈ (parseCSVToGraph num csvText).edges) :
    e.1 ∈ (parseCSVToGraph num csvText).nodes ∧
      e.2 ∈ (parseCSVToGraph num csvText).nodes := by
  rw [parse_edges_def] at he
  have := foldl_collect_endpoints num (splitOnChar '\n' (trimChars csvText))
    ([], []) (fun e' he' => absurd he' (List.not_mem_nil e')) e he
  exact ⟨collect_mem_nodes num csvText e.1 this.1,
    collect_mem_nodes num csvText e.2 this.2⟩

/-- The three structural facts shared by the parse-related claims: entry-level
symmetry, duplicate-free neighbor lists, and the adjacency keys being exactly
the sorted node list. -/
theorem parse_invariants (num : List Char → Option Int) (csvText : List Char) :
    SymmAdj (parseCSVToGraph num csvText).adjacencyList ∧
      NodupLists (parseCSVToGraph num csvText).adjacencyList ∧
      keys (parseCSVToGraph num csvText).adjacencyList =
        (parseCSVToGraph num csvText).nodes := by
  rw [parse_adj_def]
  have hends : ∀ e ∈ (collectLines num (splitOnChar '\n' (trimChars csvText))).1,
      e.1 ∈ keys ((parseCSVToGraph num csvText).nodes.map
          (fun n => (n, ([] : List Int)))) ∧
        e.2 ∈ keys ((parseCSVToGraph num csvText).nodes.map
          (fun n => (n, ([] : List Int)))) := by
    intro e he
    rw [adj0_keys]
    exact parse_edge_endpoints num csvText e (by rw [parse_edges_def]; exact he)
  have h := foldl_addEdge_invariants
    (collectLines num (splitOnChar '\n' (trimChars csvText))).1
    ((parseCSVToGraph num csvText).nodes.map (fun n => (n, ([] : List Int))))
    (adj0_symm _) (adj0_nodup _) hends
  exact ⟨h.1, h.2.1, h.2.2.trans (adj0_keys _)⟩

theorem parse_nodes_sorted_nodup (num : List Char → Option Int)
    (csvText : List Char) :
    List.Sorted (fun a b : Int => a < b) (parseCSVToGraph num csvText).nodes ∧
      (parseCSVToGraph num csvText).nodes.Nodup := by
  rw [parse_nodes_def]
  have hnd : (collectLines num (splitOnChar '\n' (trimChars csvText))).2.Nodup :=
    foldl_collect_nodes_nodup num _ ([], []) List.nodup_nil
  have hnd' := (List.perm_insertionSort
    (fun a b : Int => a ≤ b) _).nodup_iff.mpr hnd
  have hle := List.sorted_insertionSort (fun a b : Int => a ≤ b)
    (collectLines num (splitOnChar '\n' (trimChars csvText))).2
  exact ⟨(hle.and hnd').imp (fun h => lt_of_le_of_ne h.1 h.2), hnd'⟩

/-! ## Engine iteration lemmas -/

theorem alookup_mem {β : Type} (adj : List (Int × β)) (v : Int) (b : β)
    (h : alookup adj v = some b) : (v, b) ∈ adj := by
  induction adj with
  | nil => cases h
  | cons p rest ih =>
    rw [alookup_cons] at h
    by_cases hp : p.1 = v
    · rw [if_pos hp] at h
      injection h with h
      exact List.mem_cons.2 (Or.inl (by rw [← hp, ← h]))
    · rw [if_neg hp] at h
      exact List.mem_cons_of_mem _ (ih h)

theorem alookup_eq_of_mem (p : Int × List Int) :
    ∀ adj : List (Int × List Int), (keys adj).Nodup → p ∈ adj →
      alookup adj p.1 = some p.2 := by
  intro adj
  induction adj with
  | nil =>
    intro _ hp
    cases hp
  | cons q rest ih =>
    intro hk hp
    have hk' : q.1 ∉ keys rest ∧ (keys rest).Nodup := by
      unfold keys at hk ⊢
      rw [List.map_cons] at hk
      exact ⟨(List.nodup_cons.1 hk).1, (List.nodup_cons.1 hk).2⟩
    rw [alookup_cons]
    rcases List.mem_cons.1 hp with rfl | hp'
    · rw [if_pos rfl]
    · by_cases hq : q.1 = p.1
      · exact absurd (hq ▸ List.mem_map.2 ⟨p, hp', rfl⟩) hk'.1
      · rw [if_neg hq]
        exact ih hk'.2 hp'

theorem nbrs_eq_of_mem (p : Int × List Int) (adj : List (Int × List Int))
    (hk : (keys adj).Nodup) (hp : p ∈ adj) : nbrs adj p.1 = p.2 := by
  unfold nbrs
  rw [alookup_eq_of_mem p adj hk hp]
  rfl

theorem nbrs_nodup (adj : List (Int × List Int)) (hnd : NodupLists adj)
    (v : Int) : (nbrs adj v).Nodup := by
  unfold nbrs
  cases hl : alookup adj v with
  | none => exact List.nodup_nil
  | some l => exact hnd (v, l) (alookup_mem adj v l hl)

theorem nbrs_subset_keys (adj : List (Int × List Int))
    (hval : ∀ p ∈ adj, ∀ u ∈ p.2, u ∈ keys adj) (v u : Int)
    (hu : u ∈ nbrs adj v) : u ∈ keys adj := by
  unfold nbrs at hu
  cases hl : alookup adj v with
  | none =>
    rw [hl] at hu
    cases hu
  | some l =>
    rw [hl] at hu
    exact hval (v, l) (alookup_mem adj v l hl) u hu

theorem mem_nbrs_of_symm (adj : List (Int × List Int)) (hsym : SymmAdj adj)
    (u v : Int) (h : u ∈ nbrs adj v) : v ∈ nbrs adj u := by
  unfold nbrs at h
  cases hl : alookup adj v with
  | none =>
    rw [hl] at h
    cases h
  | some l =>
    rw [hl] at h
    exact hsym (v, l) (alookup_mem adj v l hl) u h

theorem keys_mapByKey (adj : List (Int × List Int)) (σ : Int → ℚ) :
    keys (mapByKey adj σ) = keys adj := by
  unfold keys mapByKey
  rw [List.map_map]
  exact List.map_congr_left (fun p _ => rfl)

theorem alookup_mapByKey (adj : List (Int × List Int)) (σ : Int → ℚ)
    (v : Int) :
    alookup (mapByKey adj σ) v = (alookup adj v).map (fun _ => σ v) := by
  induction adj with
  | nil => rfl
  | cons p rest ih =>
    show alookup ((p.1, σ p.1) :: mapByKey rest σ) v = _
    rw [alookup_cons, alookup_cons]
    by_cases hp : p.1 = v
    · rw [if_pos hp, if_pos hp]
      simp [hp]
    · rw [if_neg hp, if_neg hp]
      exact ih

theorem scoreOf_mapByKey (adj : List (Int × List Int)) (σ : Int → ℚ)
    (v : Int) :
    scoreOf (mapByKey adj σ) v = if v ∈ keys adj then σ v else 0 := by
  unfold scoreOf
  rw [alookup_mapByKey]
  cases hl : alookup adj v with
  | none =>
    rw [alookup_eq_none_iff] at hl
    simp [hl]
  | some l =>
    have hv : v ∈ keys adj := by
      by_contra hc
      rw [← alookup_eq_none_iff adj v] at hc
      simp [hl] at hc
    simp [hv]

theorem scoreOf_mapByKey_nonneg (adj : List (Int × List Int)) (σ : Int → ℚ)
    (hσ : ∀ v, 0 ≤ σ v) (v : Int) : 0 ≤ scoreOf (mapByKey adj σ) v := by
  rw [scoreOf_mapByKey]
  by_cases hv : v ∈ keys adj
  · simpa [hv] using hσ v
  · simp [hv]

theorem mapByKey_snd_sum (adj : List (Int × List Int)) (σ : Int → ℚ) :
    ((mapByKey adj σ).map Prod.snd).sum = (adj.map (fun p => σ p.1)).sum := by
  unfold mapByKey
  rw [List.map_map]
  rfl

theorem pagerankStep_mapByKey (adj : List (Int × List Int)) (d : ℚ)
    (σ : Int → ℚ) (hk : (keys adj).Nodup) :
    pagerankStep adj d (mapByKey adj σ) = mapByKey adj (stepVal adj d σ) := by
  unfold pagerankStep
  show _ = adj.map (fun p => (p.1, stepVal adj d σ p.1))
  refine List.map_congr_left ?_
  intro p hp
  unfold stepVal
  rw [nbrs_eq_of_mem p adj hk hp]

theorem pagerankLoop_succ (adj : List (Int × List Int)) (d : ℚ) (k : ℕ)
    (cur : ScoreList) :
    pagerankLoop adj d (k + 1) cur =
      if totalDiff adj (pagerankStep adj d cur) cur < tol
      then pagerankStep adj d cur
      else pagerankLoop adj d k (pagerankStep adj d cur) := rfl

/-! ## Double-counting: the symmetric neighbor sum -/

theorem list_sum_filter_map {α : Type} (l : List α) (c : α → Bool)
    (f : α → ℚ) :
    ((l.filter c).map f).sum = (l.map (fun a => if c a then f a else 0)).sum := by
  induction l with
  | nil => rfl
  | cons a rest ih =>
    by_cases hc : c a <;> simp [List.filter_cons, hc, ih]

theorem list_sum_map_add {α : Type} (l : List α) (f g : α → ℚ) :
    (l.map (fun a => f a + g a)).sum = (l.map f).sum + (l.map g).sum := by
  induction l with
  | nil => simp
  | cons a rest ih =>
    simp [ih]
    ring

theorem list_sum_map_const {α : Type} (l : List α) (c : ℚ) :
    (l.map (fun _ => c)).sum = (l.length : ℚ) * c := by
  induction l with
  | nil => simp
  | cons a rest ih =>
    simp [ih]
    ring

theorem list_sum_map_mul_left {α : Type} (l : List α) (c : ℚ) (f : α → ℚ) :
    (l.map (fun a => c * f a)).sum = c * (l.map f).sum := by
  induction l with
  | nil => simp
  | cons a rest ih =>
    simp [ih]
    ring

/-- The heart of conservation: over a symmetric, duplicate-free, closed
adjacency with unique keys, summing `g u / degree u` over every stored
neighbor list counts each non-dangling node's `g`-value exactly once. -/
theorem neighbor_sum_swap (adj : List (Int × List Int))
    (hk : (keys adj).Nodup) (hsym : SymmAdj adj) (hnd : NodupLists adj)
    (hval : ∀ p ∈ adj, ∀ u ∈ p.2, u ∈ keys adj) (g : Int → ℚ) :
    (adj.map (fun p =>
      (p.2.map (fun u => g u / (degree adj u : ℚ))).sum)).sum =
    ((keys adj).map (fun u => if degree adj u = 0 then 0 else g u)).sum := by
  classical
  have hsub : ∀ v : Int, (nbrs adj v).toFinset ⊆ (keys adj).toFinset := by
    intro v u hu
    rw [List.mem_toFinset] at hu
    rw [List.mem_toFinset]
    exact nbrs_subset_keys adj hval v u hu
  have houter : ∀ F : Int → ℚ,
      (adj.map (fun p => F p.1)).sum = (keys adj).toFinset.sum F := by
    intro F
    rw [List.sum_toFinset F hk]
    unfold keys
    rw [List.map_map]
    rfl
  have h1 : (adj.map (fun p =>
      (p.2.map (fun u => g u / (degree adj u : ℚ))).sum)).sum =
      (adj.map (fun p => ((nbrs adj p.1).toFinset.sum
        (fun u => g u / (degree adj u : ℚ))))).sum := by
    refine congrArg List.sum (List.map_congr_left ?_)
    intro p hp
    rw [nbrs_eq_of_mem p adj hk hp]
    exact (List.sum_toFinset _ (hnd p hp)).symm
  rw [h1, houter (fun v => ((nbrs adj v).toFinset.sum
    (fun u => g u / (degree adj u : ℚ))))]
  have h3 : ∀ v ∈ (keys adj).toFinset,
      (nbrs adj v).toFinset.sum (fun u => g u / (degree adj u : ℚ)) =
        (keys adj).toFinset.sum (fun u =>
          if u ∈ (nbrs adj v).toFinset
          then g u / (degree adj u : ℚ) else 0) := by
    intro v _
    rw [Finset.sum_ite_mem (keys adj).toFinset ((nbrs adj v).toFinset)
      (fun u => g u / (degree adj u : ℚ)),
      Finset.inter_eq_right.2 (hsub v)]
  rw [Finset.sum_congr rfl h3, Finset.sum_comm]
  have h5 : ∀ u ∈ (keys adj).toFinset,
      ((keys adj).toFinset.sum (fun v =>
        if u ∈ (nbrs adj v).toFinset
        then g u / (degree adj u : ℚ) else 0)) =
        if degree adj u = 0 then 0 else g u := by
    intro u _
    have hcond : ∀ v : Int,
        (u ∈ (nbrs adj v).toFinset) = (v ∈ (nbrs adj u).toFinset) := by
      intro v
      rw [List.mem_toFinset, List.mem_toFinset]
      exact propext ⟨mem_nbrs_of_symm adj hsym u v,
        mem_nbrs_of_symm adj hsym v u⟩
    calc (keys adj).toFinset.sum (fun v =>
          if u ∈ (nbrs adj v).toFinset
          then g u / (degree adj u : ℚ) else 0)
        = (keys adj).toFinset.sum (fun v =>
          if v ∈ (nbrs adj u).toFinset
          then g u / (degree adj u : ℚ) else 0) := by
          refine Finset.sum_congr rfl ?_
          intro v _
          exact if_congr (iff_of_eq (hcond v)) rfl rfl
      _ = (nbrs adj u).toFinset.sum
          (fun _ => g u / (degree adj u : ℚ)) := by
          rw [Finset.sum_ite_mem (keys adj).toFinset
            ((nbrs adj u).toFinset) (fun _ => g u / (degree adj u : ℚ)),
            Finset.inter_eq_right.2 (hsub u)]
      _ = ((nbrs adj u).toFinset.card : ℚ) * (g u / (degree adj u : ℚ)) := by
          rw [Finset.sum_const, nsmul_eq_mul]
      _ = ((degree adj u : ℕ) : ℚ) * (g u / (degree adj u : ℚ)) := by
          rw [List.toFinset_card_of_nodup (nbrs_nodup adj hnd u)]
          rfl
      _ = if degree adj u = 0 then 0 else g u := by
          by_cases hdeg : degree adj u = 0
          · simp [hdeg]
          · rw [if_neg hdeg, mul_comm]
            refine div_mul_cancel₀ _ ?_
            exact_mod_cast hdeg
  rw [Finset.sum_congr rfl h5, List.sum_toFinset _ hk]

/-- The dangling-mass term, as a sum over the key list. -/
theorem dangSum_mapByKey (adj : List (Int × List Int)) (σ : Int → ℚ)
    (hk : (keys adj).Nodup) :
    dangSum adj (mapByKey adj σ) =
      ((keys adj).map (fun u => if degree adj u = 0 then σ u else 0)).sum := by
  unfold dangSum
  rw [list_sum_filter_map]
  have h1 : (adj.map (fun p =>
      if p.2.isEmpty then scoreOf (mapByKey adj σ) p.1 else 0)).sum =
      (adj.map (fun p => if degree adj p.1 = 0 then σ p.1 else 0)).sum := by
    refine congrArg List.sum (List.map_congr_left ?_)
    intro p hp
    have hkey : p.1 ∈ keys adj := List.mem_map.2 ⟨p, hp, rfl⟩
    have hdeg : degree adj p.1 = p.2.length := by
      unfold degree
      rw [nbrs_eq_of_mem p adj hk hp]
    have hsc : scoreOf (mapByKey adj σ) p.1 = σ p.1 := by
      rw [scoreOf_mapByKey, if_pos hkey]
    cases hp2 : p.2 with
    | nil =>
      rw [hp2] at hdeg
      simp [hsc, hdeg]
    | cons a l =>
      rw [hp2] at hdeg
      simp [hdeg]
  rw [h1]
  unfold keys
  rw [List.map_map]
  rfl

/-- One iteration maps a total-score-`S` snapshot to total score
`(1-d) + d*S`; in particular it preserves total score 1. -/
theorem pagerankStep_sum (adj : List (Int × List Int)) (d : ℚ) (σ : Int → ℚ)
    (hk : (keys adj).Nodup) (hsym : SymmAdj adj) (hnd : NodupLists adj)
    (hval : ∀ p ∈ adj, ∀ u ∈ p.2, u ∈ keys adj) (hne : adj ≠ []) :
    ((pagerankStep adj d (mapByKey adj σ)).map Prod.snd).sum =
      (1 - d) + d * (adj.map (fun p => σ p.1)).sum := by
  have hlen : ((keys adj).length : ℚ) ≠ 0 := by
    have h0 : (keys adj).length = adj.length := List.length_map _ _
    have h1 : adj.length ≠ 0 := fun hc => hne (List.length_eq_zero.1 hc)
    exact_mod_cast h0 ▸ h1
  have hsc : ∀ u ∈ keys adj, scoreOf (mapByKey adj σ) u = σ u := by
    intro u hu
    rw [scoreOf_mapByKey, if_pos hu]
  have hinner : (adj.map (fun p => (p.2.map (fun u =>
      scoreOf (mapByKey adj σ) u / (degree adj u : ℚ))).sum)).sum =
      ((keys adj).map (fun u => if degree adj u = 0 then 0 else σ u)).sum := by
    rw [neighbor_sum_swap adj hk hsym hnd hval
      (fun u => scoreOf (mapByKey adj σ) u)]
    refine congrArg List.sum (List.map_congr_left ?_)
    intro u hu
    by_cases hdeg : degree adj u = 0
    · simp [hdeg]
    · simp [hdeg, hsc u hu]
  have hjoin : ((keys adj).map (fun u =>
      if degree adj u = 0 then 0 else σ u)).sum +
      ((keys adj).map (fun u => if degree adj u = 0 then σ u else 0)).sum =
      ((keys adj).map σ).sum := by
    rw [← list_sum_map_add]
    refine congrArg List.sum (List.map_congr_left ?_)
    intro u _
    by_cases hdeg : degree adj u = 0 <;> simp [hdeg]
  have hkeysum : ((keys adj).map σ).sum = (adj.map (fun p => σ p.1)).sum := by
    unfold keys
    rw [List.map_map]
    rfl
  unfold pagerankStep
  rw [List.map_map]
  show (adj.map (fun p =>
      (1 - d) / ((keys adj).length : ℚ) +
        d * ((p.2.map (fun u =>
          scoreOf (mapByKey adj σ) u / (degree adj u : ℚ))).sum +
          dangSum adj (mapByKey adj σ) / ((keys adj).length : ℚ)))).sum = _
  rw [list_sum_map_add adj (fun _ => (1 - d) / ((keys adj).length : ℚ))
    (fun p => d * ((p.2.map (fun u =>
      scoreOf (mapByKey adj σ) u / (degree adj u : ℚ))).sum +
      dangSum adj (mapByKey adj σ) / ((keys adj).length : ℚ)))]
  rw [list_sum_map_const adj ((1 - d) / ((keys adj).length : ℚ))]
  rw [list_sum_map_mul_left adj d (fun p => (p.2.map (fun u =>
    scoreOf (mapByKey adj σ) u / (degree adj u : ℚ))).sum +
    dangSum adj (mapByKey adj σ) / ((keys adj).length : ℚ))]
  rw [list_sum_map_add adj (fun p => (p.2.map (fun u =>
    scoreOf (mapByKey adj σ) u / (degree adj u : ℚ))).sum)
    (fun _ => dangSum adj (mapByKey adj σ) / ((keys adj).length : ℚ))]
  rw [list_sum_map_const adj
    (dangSum adj (mapByKey adj σ) / ((keys adj).length : ℚ))]
  rw [hinner, dangSum_mapByKey adj σ hk]
  have hlk : (adj.length : ℚ) = ((keys adj).length : ℚ) := by
    exact_mod_cast congrArg Nat.cast (List.length_map adj Prod.fst).symm
  rw [hlk]
  rw [show ((keys adj).length : ℚ) * ((1 - d) / ((keys adj).length : ℚ)) =
    1 - d from by rw [mul_comm]; exact div_mul_cancel₀ _ hlen]
  rw [show ((keys adj).length : ℚ) *
    ((((keys adj).map (fun u => if degree adj u = 0 then σ u else 0)).sum) /
      ((keys adj).length : ℚ)) =
    (((keys adj).map (fun u => if degree adj u = 0 then σ u else 0)).sum)
    from by rw [mul_comm]; exact div_mul_cancel₀ _ hlen]
  rw [hjoin, hkeysum]

theorem stepVal_nonneg (adj : List (Int × List Int)) (d : ℚ) (σ : Int → ℚ)
    (hd : 0 < d ∧ d < 1) (hσ : ∀ v, 0 ≤ σ v) (v : Int) :
    0 ≤ stepVal adj d σ v := by
  unfold stepVal
  have hn : (0 : ℚ) ≤ ((keys adj).length : ℚ) := by positivity
  have h1 : (0 : ℚ) ≤ (1 - d) / ((keys adj).length : ℚ) :=
    div_nonneg (by linarith [hd.2]) hn
  have h2 : (0 : ℚ) ≤ ((nbrs adj v).map (fun u =>
      scoreOf (mapByKey adj σ) u / (degree adj u : ℚ))).sum := by
    refine List.sum_nonneg ?_
    intro x hx
    obtain ⟨u, _, rfl⟩ := List.mem_map.1 hx
    exact div_nonneg (scoreOf_mapByKey_nonneg adj σ hσ u) (by positivity)
  have h3 : (0 : ℚ) ≤ dangSum adj (mapByKey adj σ) := by
    unfold dangSum
    refine List.sum_nonneg ?_
    intro x hx
    obtain ⟨p, _, rfl⟩ := List.mem_map.1 hx
    exact scoreOf_mapByKey_nonneg adj σ hσ p.1
  exact add_nonneg h1 (mul_nonneg hd.1.le
    (add_nonneg h2 (div_nonneg h3 hn)))

/-- The iteration loop keeps the scores in the `mapByKey` shape, everywhere
non-negative, with total score exactly 1. -/
theorem pagerankLoop_conserves (adj : List (Int × List Int)) (d : ℚ)
    (hk : (keys adj).Nodup) (hsym : SymmAdj adj) (hnd : NodupLists adj)
    (hval : ∀ p ∈ adj, ∀ u ∈ p.2, u ∈ keys adj) (hne : adj ≠ [])
    (hd : 0 < d ∧ d < 1) :
    ∀ (k : ℕ) (σ : Int → ℚ), (∀ v, 0 ≤ σ v) →
      (adj.map (fun p => σ p.1)).sum = 1 →
      ∃ τ : Int → ℚ,
        pagerankLoop adj d k (mapByKey adj σ) = mapByKey adj τ ∧
          (∀ v, 0 ≤ τ v) ∧ (adj.map (fun p => τ p.1)).sum = 1 := by
  intro k
  induction k with
  | zero =>
    intro σ h1 h2
    exact ⟨σ, rfl, h1, h2⟩
  | succ k ih =>
    intro σ h1 h2
    rw [pagerankLoop_succ, pagerankStep_mapByKey adj d σ hk]
    have hstep1 : ∀ v, 0 ≤ stepVal adj d σ v := stepVal_nonneg adj d σ hd h1
    have hstep2 : (adj.map (fun p => stepVal adj d σ p.1)).sum = 1 := by
      have hs := pagerankStep_sum adj d σ hk hsym hnd hval hne
      rw [pagerankStep_mapByKey adj d σ hk, mapByKey_snd_sum, h2] at hs
      rw [hs]
      ring
    split
    · exact ⟨stepVal adj d σ, rfl, hstep1, hstep2⟩
    · exact ih (stepVal adj d σ) hstep1 hstep2

/-! ## Permutation invariance of the engine -/

theorem alookup_perm (adj1 adj2 : List (Int × List Int))
    (hk : (keys adj1).Nodup) (hperm : List.Perm adj1 adj2) (v : Int) :
    alookup adj1 v = alookup adj2 v := by
  have hk2 : (keys adj2).Nodup := (hperm.map Prod.fst).nodup_iff.1 hk
  cases hl : alookup adj1 v with
  | none =>
    have h1 : v ∉ keys adj1 := (alookup_eq_none_iff adj1 v).1 hl
    have h2 : v ∉ keys adj2 := fun hc =>
      h1 ((hperm.map Prod.fst).mem_iff.2 hc)
    exact ((alookup_eq_none_iff adj2 v).2 h2).symm
  | some l =>
    have hm : (v, l) ∈ adj2 := hperm.mem_iff.1 (alookup_mem adj1 v l hl)
    exact (alookup_eq_of_mem (v, l) adj2 hk2 hm).symm

theorem nbrs_perm (adj1 adj2 : List (Int × List Int))
    (hk : (keys adj1).Nodup) (hperm : List.Perm adj1 adj2) (v : Int) :
    nbrs adj1 v = nbrs adj2 v := by
  unfold nbrs
  rw [alookup_perm adj1 adj2 hk hperm v]

theorem scoreOf_mapByKey_perm (adj1 adj2 : List (Int × List Int))
    (_hk : (keys adj1).Nodup) (hperm : List.Perm adj1 adj2) (σ : Int → ℚ)
    (v : Int) :
    scoreOf (mapByKey adj1 σ) v = scoreOf (mapByKey adj2 σ) v := by
  rw [scoreOf_mapByKey, scoreOf_mapByKey]
  by_cases hv : v ∈ keys adj1
  · rw [if_pos hv, if_pos
      (show v ∈ keys adj2 from (hperm.map Prod.fst).mem_iff.1 hv)]
  · rw [if_neg hv, if_neg
      (show v ∉ keys adj2 from fun hc =>
        hv ((hperm.map Prod.fst).mem_iff.2 hc))]

theorem dangSum_perm (adj1 adj2 : List (Int × List Int))
    (hk : (keys adj1).Nodup) (hperm : List.Perm adj1 adj2) (σ : Int → ℚ) :
    dangSum adj1 (mapByKey adj1 σ) = dangSum adj2 (mapByKey adj2 σ) := by
  unfold dangSum
  have hfeq : (fun p : Int × List Int => scoreOf (mapByKey adj2 σ) p.1) =
      (fun p : Int × List Int => scoreOf (mapByKey adj1 σ) p.1) :=
    funext (fun p => (scoreOf_mapByKey_perm adj1 adj2 hk hperm σ p.1).symm)
  rw [hfeq]
  exact List.Perm.sum_eq
    (((hperm.filter (fun p => p.2.isEmpty))).map
      (fun p => scoreOf (mapByKey adj1 σ) p.1))

theorem stepVal_perm (adj1 adj2 : List (Int × List Int)) (d : ℚ)
    (hk : (keys adj1).Nodup) (hperm : List.Perm adj1 adj2) (σ : Int → ℚ) :
    stepVal adj1 d σ = stepVal adj2 d σ := by
  funext v
  unfold stepVal
  have hkl : (keys adj1).length = (keys adj2).length :=
    (hperm.map Prod.fst).length_eq
  have hfun : (fun u => scoreOf (mapByKey adj1 σ) u / (degree adj1 u : ℚ)) =
      (fun u => scoreOf (mapByKey adj2 σ) u / (degree adj2 u : ℚ)) := by
    funext u
    unfold degree
    rw [scoreOf_mapByKey_perm adj1 adj2 hk hperm σ u,
      nbrs_perm adj1 adj2 hk hperm u]
  rw [hkl, hfun, nbrs_perm adj1 adj2 hk hperm v,
    dangSum_perm adj1 adj2 hk hperm σ]

theorem totalDiff_perm (adj1 adj2 : List (Int × List Int))
    (hk : (keys adj1).Nodup) (hperm : List.Perm adj1 adj2)
    (σ τ : Int → ℚ) :
    totalDiff adj1 (mapByKey adj1 τ) (mapByKey adj1 σ) =
      totalDiff adj2 (mapByKey adj2 τ) (mapByKey adj2 σ) := by
  unfold totalDiff
  have hfeq : (fun p : Int × List Int =>
      |scoreOf (mapByKey adj2 τ) p.1 - scoreOf (mapByKey adj2 σ) p.1|) =
      (fun p : Int × List Int =>
      |scoreOf (mapByKey adj1 τ) p.1 - scoreOf (mapByKey adj1 σ) p.1|) := by
    funext p
    rw [scoreOf_mapByKey_perm adj1 adj2 hk hperm τ p.1,
      scoreOf_mapByKey_perm adj1 adj2 hk hperm σ p.1]
  rw [hfeq]
  exact List.Perm.sum_eq (hperm.map _)

theorem pagerankLoop_perm (adj1 adj2 : List (Int × List Int)) (d : ℚ)
    (hk : (keys adj1).Nodup) (hperm : List.Perm adj1 adj2) :
    ∀ (k : ℕ) (σ : Int → ℚ),
      ∃ τ : Int → ℚ,
        pagerankLoop adj1 d k (mapByKey adj1 σ) = mapByKey adj1 τ ∧
          pagerankLoop adj2 d k (mapByKey adj2 σ) = mapByKey adj2 τ := by
  have hk2 : (keys adj2).Nodup := (hperm.map Prod.fst).nodup_iff.1 hk
  intro k
  induction k with
  | zero =>
    intro σ
    exact ⟨σ, rfl, rfl⟩
  | succ k ih =>
    intro σ
    rw [pagerankLoop_succ, pagerankLoop_succ,
      pagerankStep_mapByKey adj1 d σ hk, pagerankStep_mapByKey adj2 d σ hk2,
      ← stepVal_perm adj1 adj2 d hk hperm σ,
      totalDiff_perm adj1 adj2 hk hperm σ (stepVal adj1 d σ)]
    by_cases hc : totalDiff adj2 (mapByKey adj2 (stepVal adj1 d σ))
        (mapByKey adj2 σ) < tol
    · rw [if_pos hc, if_pos hc]
      exact ⟨stepVal adj1 d σ, rfl, rfl⟩
    · rw [if_neg hc, if_neg hc]
      exact ih (stepVal adj1 d σ)

/-- Either both computations fail with `InvalidInput`, or both succeed with
score lists carrying the same per-node value function. -/
theorem computePageRank_perm_master (adj1 adj2 : List (Int × List Int))
    (i : Int) (d : ℚ) (hk : (keys adj1).Nodup)
    (hperm : List.Perm adj1 adj2) :
    (computePageRank adj1 i d = .error .invalidInput ∧
      computePageRank adj2 i d = .error .invalidInput) ∨
    (∃ τ : Int → ℚ, computePageRank adj1 i d = .ok (mapByKey adj1 τ) ∧
      computePageRank adj2 i d = .ok (mapByKey adj2 τ)) := by
  have hkl : (keys adj1).length = (keys adj2).length :=
    (hperm.map Prod.fst).length_eq
  by_cases h1 : i ≤ 0
  · refine Or.inl ⟨?_, ?_⟩ <;> (unfold computePageRank; rw [if_pos h1])
  · by_cases h2 : 0 < d ∧ d < 1
    · by_cases h3 : ∀ p ∈ adj1, ∀ u ∈ p.2, u ∈ keys adj1
      · have h3' : ∀ p ∈ adj2, ∀ u ∈ p.2, u ∈ keys adj2 := by
          intro p hp u hu
          exact (hperm.map Prod.fst).mem_iff.1
            (h3 p (hperm.mem_iff.2 hp) u hu)
        by_cases h4 : (keys adj1).length = 0
        · have ha1 : adj1 = [] := by
            have : keys adj1 = [] := List.length_eq_zero.1 h4
            unfold keys at this
            exact List.map_eq_nil_iff.1 this
          have ha2 : adj2 = [] := by
            refine List.Perm.eq_nil ?_
            rw [← ha1]
            exact hperm.symm
          subst ha1
          subst ha2
          refine Or.inr ⟨fun _ => 0, ?_, ?_⟩ <;>
            (unfold computePageRank
             rw [if_neg h1, if_neg (not_not_intro h2),
               if_neg (not_not_intro (fun p hp =>
                 absurd hp (List.not_mem_nil p)))]
             rfl)
        · have h4' : ¬(keys adj2).length = 0 := by
            rw [← hkl]
            exact h4
          obtain ⟨τ, hl1, hl2⟩ := pagerankLoop_perm adj1 adj2 d hk hperm
            i.toNat (fun _ => 1 / ((keys adj1).length : ℚ))
          refine Or.inr ⟨τ, ?_, ?_⟩
          · unfold computePageRank
            rw [if_neg h1, if_neg (not_not_intro h2),
              if_neg (not_not_intro h3), if_neg h4]
            rw [show (adj1.map (fun p =>
              (p.1, 1 / (((keys adj1).length : ℚ))))) =
              mapByKey adj1 (fun _ => 1 / ((keys adj1).length : ℚ)) from rfl]
            rw [hl1]
          · unfold computePageRank
            rw [if_neg h1, if_neg (not_not_intro h2),
              if_neg (not_not_intro h3'), if_neg h4']
            rw [show ((keys adj2).length : ℚ) = ((keys adj1).length : ℚ)
              from by rw [hkl]]
            rw [show (adj2.map (fun p =>
              (p.1, 1 / (((keys adj1).length : ℚ))))) =
              mapByKey adj2 (fun _ => 1 / ((keys adj1).length : ℚ)) from rfl]
            rw [hl2]
      · have h3' : ¬∀ p ∈ adj2, ∀ u ∈ p.2, u ∈ keys adj2 := by
          intro hc
          refine h3 ?_
          intro p hp u hu
          exact (hperm.map Prod.fst).mem_iff.2
            (hc p (hperm.mem_iff.1 hp) u hu)
        refine Or.inl ⟨?_, ?_⟩
        · unfold computePageRank
          rw [if_neg h1, if_neg (not_not_intro h2), if_pos h3]
        · unfold computePageRank
          rw [if_neg h1, if_neg (not_not_intro h2), if_pos h3']
    · refine Or.inl ⟨?_, ?_⟩ <;>
        (unfold computePageRank; rw [if_neg h1, if_pos h2])

/-! ## Claim theorems -/

/-- Claim C10: when no PageRank scores have been computed (`pageRankScores` is
null, `app.js:375`), `getRecommendations` returns the empty list for every
node identifier and every graph. -/
theorem c10_no_scores_no_recommendations (g : Graph) (n : Int) :
    getRecommendations g none n = [] := rfl

/-- Claim C4: if the engine invocation inside the application's `computePageRank`
method fails, the stored score map is left exactly as it was before the call;
no partially-computed map ever replaces the prior scores on error
(`app.js:187-203`). -/
theorem c4_error_preserves_scores (s : AppState) (e : PRError) :
    (appComputePageRank s (.error e)).1.pageRankScores = s.pageRankScores := by
  unfold appComputePageRank
  split
  · rfl
  · rfl

/-- Claim C5: while a computation is in flight (`isComputing = true`), a later
invocation of the application's `computePageRank` method returns immediately
with the state unchanged and without reaching the engine call
(`app.js:180`); when the guard passes, the engine call is reached exactly
once and `isComputing` is `false` again when the method finishes, whether
the engine call succeeds or fails (`app.js:199-203`). -/
theorem c5_inflight_guard (s : AppState)
    (r : Except PRError (Int → ℚ)) :
    (s.isComputing = true → appComputePageRank s r = (s, false)) ∧
    (s.isComputing = false →
      (appComputePageRank s r).2 = true ∧
      (appComputePageRank s r).1.isComputing = false) := by
  constructor
  · intro h
    unfold appComputePageRank
    rw [if_pos h]
  · intro h
    unfold appComputePageRank
    rw [if_neg (by simp [h])]
    cases r with
    | ok m => exact ⟨rfl, rfl⟩
    | error e => exact ⟨rfl, rfl⟩

theorem c5_inflight_guard_witness :
    (appComputePageRank
        ⟨⟨[], [], []⟩, none, none, true⟩ (.error .invalidInput) =
      (⟨⟨[], [], []⟩, none, none, true⟩, false)) ∧
    ((appComputePageRank
        ⟨⟨[], [], []⟩, none, none, false⟩ (.error .invalidInput)).2 = true ∧
      (appComputePageRank
        ⟨⟨[], [], []⟩, none, none, false⟩
          (.error .invalidInput)).1.isComputing = false) :=
  ⟨(c5_inflight_guard ⟨⟨[], [], []⟩, none, none, true⟩
      (.error .invalidInput)).1 rfl,
    (c5_inflight_guard ⟨⟨[], [], []⟩, none, none, false⟩
      (.error .invalidInput)).2 rfl⟩

/-- Claim C8: the engine fails with `InvalidInput` exactly when
`maxIterations ≤ 0`, or the damping factor is not strictly between `0` and
`1`, or some neighbor identifier is not a key of the adjacency relation; in
particular `compute(adj, 0, 0.85)` and `compute(adj, 50, 1.0)` fail with
`InvalidInput` for every adjacency, and on valid input the engine returns a
score map (no other failure exists). -/
theorem c8_invalid_input_characterisation :
    (∀ (adj : List (Int × List Int)) (i : Int) (d : ℚ),
      computePageRank adj i d = .error .invalidInput ↔
        (i ≤ 0 ∨ d ≤ 0 ∨ 1 ≤ d ∨ ∃ p ∈ adj, ∃ u ∈ p.2, u ∉ keys adj)) ∧
    (∀ adj, computePageRank adj 0 (85 / 100) = .error .invalidInput) ∧
    (∀ adj, computePageRank adj 50 1 = .error .invalidInput) ∧
    (∀ (adj : List (Int × List Int)) (i : Int) (d : ℚ),
      ¬(i ≤ 0 ∨ d ≤ 0 ∨ 1 ≤ d ∨ ∃ p ∈ adj, ∃ u ∈ p.2, u ∉ keys adj) →
        ∃ m, computePageRank adj i d = .ok m) := by
  have key : ∀ (adj : List (Int × List Int)) (i : Int) (d : ℚ),
      computePageRank adj i d = .error .invalidInput ↔
        (i ≤ 0 ∨ d ≤ 0 ∨ 1 ≤ d ∨ ∃ p ∈ adj, ∃ u ∈ p.2, u ∉ keys adj) := by
    intro adj i d
    by_cases h1 : i ≤ 0
    · unfold computePageRank
      rw [if_pos h1]
      exact iff_of_true rfl (Or.inl h1)
    · by_cases h2 : 0 < d ∧ d < 1
      · by_cases h3 : ∀ p ∈ adj, ∀ u ∈ p.2, u ∈ keys adj
        · unfold computePageRank
          rw [if_neg h1, if_neg (not_not_intro h2), if_neg (not_not_intro h3)]
          constructor
          · intro h
            split at h <;> simp at h
          · rintro (h | h | h | h)
            · exact absurd h h1
            · exact absurd h (not_le.mpr h2.1)
            · exact absurd h (not_le.mpr h2.2)
            · obtain ⟨p, hp, u, hu, hk⟩ := h
              exact absurd (h3 p hp u hu) hk
        · unfold computePageRank
          rw [if_neg h1, if_neg (not_not_intro h2), if_pos h3]
          push_neg at h3
          exact iff_of_true rfl (Or.inr (Or.inr (Or.inr h3)))
      · unfold computePageRank
        rw [if_neg h1, if_pos h2]
        have hd : d ≤ 0 ∨ 1 ≤ d := by
          rcases lt_or_le 0 d with hp | hp
          · exact Or.inr (le_of_not_lt fun hlt => h2 ⟨hp, hlt⟩)
          · exact Or.inl hp
        exact iff_of_true rfl
          (hd.elim (fun h => Or.inr (Or.inl h))
            (fun h => Or.inr (Or.inr (Or.inl h))))
  refine ⟨key, ?_, ?_, ?_⟩
  · intro adj
    exact (key adj 0 (85 / 100)).2 (Or.inl le_rfl)
  · intro adj
    exact (key adj 50 1).2 (Or.inr (Or.inr (Or.inl le_rfl)))
  · intro adj i d h
    rcases hc : computePageRank adj i d with m | m
    · exact absurd ((key adj i d).1 (by cases m; exact hc)) h
    · exact ⟨m, rfl⟩

theorem c8_invalid_input_characterisation_witness :
    ∃ m, computePageRank [((1 : Int), [(2 : Int)]), (2, [1])] 50 (1 / 2) =
      .ok m :=
  c8_invalid_input_characterisation.2.2.2
    [((1 : Int), [(2 : Int)]), (2, [1])] 50 (1 / 2)
    (fun h =>
      h.elim (fun h => absurd h (by decide))
        (fun h =>
          h.elim (fun h => absurd h (not_le.mpr one_half_pos))
            (fun h =>
              h.elim (fun h => absurd h (not_le.mpr one_half_lt_one))
                (fun h => absurd h (by decide)))))

/-- Claim C9: for every input text the parsed node list is strictly ascending with
no duplicate identifiers, and the adjacency keys are exactly the node list
(`app.js:157-176`). -/
theorem c9_nodes_sorted_and_keys (num : List Char → Option Int)
    (csvText : List Char) :
    List.Sorted (fun a b : Int => a < b) (parseCSVToGraph num csvText).nodes ∧
      (parseCSVToGraph num csvText).nodes.Nodup ∧
      keys (parseCSVToGraph num csvText).adjacencyList =
        (parseCSVToGraph num csvText).nodes :=
  ⟨(parse_nodes_sorted_nodup num csvText).1,
    (parse_nodes_sorted_nodup num csvText).2,
    (parse_invariants num csvText).2.2⟩

/-- Claim C3: for every input text, `parseCSVToGraph` extracts exactly one edge per
well-formed line (in order), skipping every line whose first two
comma-separated fields do not both coerce to numbers, and every node mentioned
in a well-formed line appears in the returned node list and as a key of the
returned adjacency list (`app.js:143-177`). -/
theorem c3_parse_skip_and_membership (num : List Char → Option Int)
    (csvText : List Char) :
    (parseCSVToGraph num csvText).edges =
      (splitOnChar '\n' (trimChars csvText)).filterMap (parseLine num) ∧
    ∀ line ∈ splitOnChar '\n' (trimChars csvText), ∀ s t : Int,
      parseLine num line = some (s, t) →
        s ∈ (parseCSVToGraph num csvText).nodes ∧
        t ∈ (parseCSVToGraph num csvText).nodes ∧
        s ∈ keys (parseCSVToGraph num csvText).adjacencyList ∧
        t ∈ keys (parseCSVToGraph num csvText).adjacencyList := by
  constructor
  · rw [parse_edges_def]
    unfold collectLines
    rw [foldl_collect_edges num _ ([], [])]
    exact List.nil_append _
  · intro line hline s t hparse
    have hm := foldl_collect_nodes_mem num _ ([], []) line hline s t hparse
    have hs := collect_mem_nodes num csvText s hm.1
    have ht := collect_mem_nodes num csvText t hm.2
    have hk := (parse_invariants num csvText).2.2
    exact ⟨hs, ht, by rw [hk]; exact hs, by rw [hk]; exact ht⟩

theorem c3_parse_skip_and_membership_witness :
    (1 : Int) ∈ (parseCSVToGraph jsNum ("1,2\nbad".toList)).nodes ∧
    (2 : Int) ∈ (parseCSVToGraph jsNum ("1,2\nbad".toList)).nodes ∧
    (1 : Int) ∈ keys (parseCSVToGraph jsNum ("1,2\nbad".toList)).adjacencyList ∧
    (2 : Int) ∈ keys (parseCSVToGraph jsNum ("1,2\nbad".toList)).adjacencyList :=
  (c3_parse_skip_and_membership jsNum ("1,2\nbad".toList)).2
    ("1,2".toList) (by decide) 1 2 (by decide)

/-- Claim C2 COUNTEREXAMPLE: the claim asserts that no adjacency produced by
`parseCSVToGraph` has a self-loop, for any input text; but on the input
`"5,5"` the parser stores node `5` in node `5`'s own neighbor list
(`app.js:163-170` guards only against duplicates, not against
`source = target`). -/
theorem c2_counterexample_self_loop :
    (5 : Int) ∈ nbrs (parseCSVToGraph jsNum ("5,5".toList)).adjacencyList 5 := by
  decide

/-- Claim C2 (amended): every adjacency produced by `parseCSVToGraph` is symmetric
with duplicate-free neighbor lists; it additionally has no self-loops
provided no well-formed line has `source = target`.  A `connectNodes` call
whose two identifiers are distinct existing keys preserves all three
invariants (`app.js:395-405`). -/
theorem c2_adjacency_invariants_amended :
    (∀ (num : List Char → Option Int) (csvText : List Char),
      SymmAdj (parseCSVToGraph num csvText).adjacencyList ∧
        NodupLists (parseCSVToGraph num csvText).adjacencyList) ∧
    (∀ (num : List Char → Option Int) (csvText : List Char),
      (∀ e ∈ (splitOnChar '\n' (trimChars csvText)).filterMap (parseLine num),
        e.1 ≠ e.2) →
      NoSelfLoops (parseCSVToGraph num csvText).adjacencyList) ∧
    (∀ (g : Graph) (s t : Int),
      SymmAdj g.adjacencyList → NodupLists g.adjacencyList →
      NoSelfLoops g.adjacencyList →
      s ∈ keys g.adjacencyList → t ∈ keys g.adjacencyList → s ≠ t →
      SymmAdj (connectNodes g s t).adjacencyList ∧
        NodupLists (connectNodes g s t).adjacencyList ∧
        NoSelfLoops (connectNodes g s t).adjacencyList) := by
  refine ⟨?_, ?_, ?_⟩
  · intro num csvText
    exact ⟨(parse_invariants num csvText).1, (parse_invariants num csvText).2.1⟩
  · intro num csvText hne
    rw [parse_adj_def]
    refine foldl_addEdge_noSelf _ _ (adj0_noself _) ?_
    intro e he
    refine hne e ?_
    have hcoll : (collectLines num (splitOnChar '\n' (trimChars csvText))).1 =
        (splitOnChar '\n' (trimChars csvText)).filterMap (parseLine num) := by
      unfold collectLines
      rw [foldl_collect_edges num _ ([], [])]
      exact List.nil_append _
    rw [← hcoll]
    exact he
  · intro g s t h1 h2 h3 hs ht hst
    have hadj : (connectNodes g s t).adjacencyList =
        addEdge g.adjacencyList s t := rfl
    rw [hadj]
    exact ⟨symmAdj_addEdge _ _ _ h1 hs ht, nodupLists_addEdge _ _ _ h2,
      noSelfLoops_addEdge _ _ _ h3 hst⟩

theorem c2_adjacency_invariants_amended_witness :
    NoSelfLoops (parseCSVToGraph jsNum ("1,2".toList)).adjacencyList ∧
    (SymmAdj (connectNodes
        ⟨[1, 2, 3], [(1, 2)], [(1, [2]), (2, [1]), (3, [])]⟩ 1 3).adjacencyList ∧
      NodupLists (connectNodes
        ⟨[1, 2, 3], [(1, 2)], [(1, [2]), (2, [1]), (3, [])]⟩ 1 3).adjacencyList ∧
      NoSelfLoops (connectNodes
        ⟨[1, 2, 3], [(1, 2)], [(1, [2]), (2, [1]), (3, [])]⟩ 1 3).adjacencyList) :=
  ⟨c2_adjacency_invariants_amended.2.1 jsNum ("1,2".toList) (by decide),
    c2_adjacency_invariants_amended.2.2
      ⟨[1, 2, 3], [(1, 2)], [(1, [2]), (2, [1]), (3, [])]⟩ 1 3
      (by decide) (by decide) (by decide) (by decide) (by decide) (by decide)⟩

theorem getRecommendations_some (g : Graph) (f : Int → ℚ) (n : Int) :
    getRecommendations g (some f) n =
      (List.insertionSort scoreDesc
        ((g.nodes.filter
          (fun v => decide (v ∉ n :: nbrs g.adjacencyList n))).map
            (fun v => (v, f v)))).take 3 := rfl

/-- Claim C1: for every graph, every node identifier `n` and every non-null score
map, `getRecommendations` returns at most 3 entries — exactly
`min 3 (number of candidates)` — each naming a graph node that is neither `n`
nor one of `n`'s neighbors and carrying that node's score, ordered by
descending score, and no excluded candidate scores higher than any returned
entry (`app.js:374-393`). -/
theorem c1_recommendations_top3 (g : Graph) (f : Int → ℚ) (n : Int) :
    (getRecommendations g (some f) n).length =
      min 3 ((g.nodes.filter
        (fun v => decide (v ∉ n :: nbrs g.adjacencyList n))).length) ∧
    (∀ r ∈ getRecommendations g (some f) n,
      r.1 ∈ g.nodes ∧ r.1 ≠ n ∧ r.1 ∉ nbrs g.adjacencyList n ∧ r.2 = f r.1) ∧
    List.Sorted scoreDesc (getRecommendations g (some f) n) ∧
    (∀ v ∈ g.nodes, v ≠ n → v ∉ nbrs g.adjacencyList n →
      (v, f v) ∉ getRecommendations g (some f) n →
      ∀ r ∈ getRecommendations g (some f) n, f v ≤ r.2) := by
  rw [getRecommendations_some]
  refine ⟨?_, ?_, ?_, ?_⟩
  · rw [List.length_take, (List.perm_insertionSort scoreDesc _).length_eq,
      List.length_map]
  · intro r hr
    have hr' := (List.perm_insertionSort scoreDesc _).mem_iff.1
      (List.mem_of_mem_take hr)
    obtain ⟨v, hvf, rfl⟩ := List.mem_map.1 hr'
    have hvn := List.mem_filter.1 hvf
    have hnot : v ∉ n :: nbrs g.adjacencyList n := of_decide_eq_true hvn.2
    rw [List.mem_cons] at hnot
    push_neg at hnot
    exact ⟨hvn.1, hnot.1, hnot.2, rfl⟩
  · exact (List.sorted_insertionSort scoreDesc _).sublist
      (List.take_sublist 3 _)
  · intro v hv hvn hvnb hnotin r hr
    have hc : (v, f v) ∈
        (g.nodes.filter
          (fun v => decide (v ∉ n :: nbrs g.adjacencyList n))).map
            (fun v => (v, f v)) := by
      refine List.mem_map.2 ⟨v, List.mem_filter.2 ⟨hv, ?_⟩, rfl⟩
      refine decide_eq_true ?_
      rw [List.mem_cons]
      push_neg
      exact ⟨hvn, hvnb⟩
    have hsortedmem := (List.perm_insertionSort scoreDesc _).mem_iff.2 hc
    have hsplit := (List.take_append_drop 3
      (List.insertionSort scoreDesc
        ((g.nodes.filter
          (fun v => decide (v ∉ n :: nbrs g.adjacencyList n))).map
            (fun v => (v, f v))))).symm
    have hdrop : (v, f v) ∈
        (List.insertionSort scoreDesc
          ((g.nodes.filter
            (fun v => decide (v ∉ n :: nbrs g.adjacencyList n))).map
              (fun v => (v, f v)))).drop 3 := by
      rcases List.mem_append.1 (hsplit ▸ hsortedmem) with h | h
      · exact absurd h hnotin
      · exact h
    have hpair := List.pairwise_append.1
      (hsplit ▸ List.sorted_insertionSort scoreDesc
        ((g.nodes.filter
          (fun v => decide (v ∉ n :: nbrs g.adjacencyList n))).map
            (fun v => (v, f v))))
    exact hpair.2.2 r hr (v, f v) hdrop

theorem c1_recommendations_top3_witness :
    ∀ r ∈ getRecommendations ⟨[1, 2, 3, 4, 5, 6], [], [(1, [2]), (2, [1])]⟩
      (some (fun v => (v : ℚ))) 1,
      ((3 : Int) : ℚ) ≤ r.2 :=
  (c1_recommendations_top3 ⟨[1, 2, 3, 4, 5, 6], [], [(1, [2]), (2, [1])]⟩
    (fun v => (v : ℚ)) 1).2.2.2 3 (by decide) (by decide) (by decide)
    (by decide)

/-- Claim C6 COUNTEREXAMPLE: the claim asserts the returned scores sum to 1 within
`±1e-6` for EVERY valid adjacency relation; but the empty adjacency relation
is valid (symmetric, duplicate-free, closed) and the spec's own algorithm
(§4.1 step 1) returns the empty map for it, whose score sum is 0, outside the
tolerance. -/
theorem c6_counterexample_empty :
    computePageRank [] 50 (1 / 2) = .ok [] ∧
      (([] : ScoreList).map Prod.snd).sum = 0 ∧
      ¬(|(([] : ScoreList).map Prod.snd).sum - 1| ≤ tol) := by
  refine ⟨?_, rfl, ?_⟩
  · unfold computePageRank
    rw [if_neg (by norm_num), if_neg
        (not_not_intro ⟨one_half_pos, one_half_lt_one⟩),
      if_neg (not_not_intro
        (fun p hp => absurd hp (List.not_mem_nil p)))]
    rfl
  · have h : |((([] : ScoreList).map Prod.snd).sum - 1)| = 1 := by
      norm_num
    rw [h]
    norm_num [tol]

/-- Claim C6 (amended): for every valid NONEMPTY adjacency relation and valid
parameters, the engine succeeds and every returned score is non-negative with
the scores summing to exactly 1 (hence within any tolerance); for the empty
relation the result is the empty map.  Modelled from the spec (§4.1) with the
dangling-mass-redistribution variant, the choice consistent with the spec's §8
test properties. -/
theorem c6_conservation_amended (adj : List (Int × List Int)) (i : Int)
    (d : ℚ) (hk : (keys adj).Nodup) (hsym : SymmAdj adj)
    (hnd : NodupLists adj) (hval : ∀ p ∈ adj, ∀ u ∈ p.2, u ∈ keys adj)
    (hi : 0 < i) (hd : 0 < d ∧ d < 1) (hne : adj ≠ []) :
    ∃ m : ScoreList, computePageRank adj i d = .ok m ∧
      (∀ q ∈ m, 0 ≤ q.2) ∧ (m.map Prod.snd).sum = 1 := by
  have hlen0 : (keys adj).length ≠ 0 := by
    have h0 : (keys adj).length = adj.length := List.length_map _ _
    rw [h0]
    exact fun hc => hne (List.length_eq_zero.1 hc)
  have hlenq : ((keys adj).length : ℚ) ≠ 0 := by exact_mod_cast hlen0
  have hinit_nonneg : ∀ v : Int,
      0 ≤ (fun _ : Int => 1 / ((keys adj).length : ℚ)) v := by
    intro v
    positivity
  have hinit_sum : (adj.map (fun p =>
      (fun _ : Int => 1 / ((keys adj).length : ℚ)) p.1)).sum = 1 := by
    rw [list_sum_map_const adj (1 / ((keys adj).length : ℚ))]
    rw [show ((adj.length : ℚ)) = ((keys adj).length : ℚ) from by
      exact_mod_cast congrArg Nat.cast (List.length_map adj Prod.fst).symm]
    rw [mul_one_div, div_self hlenq]
  obtain ⟨τ, hloop, hτ1, hτ2⟩ := pagerankLoop_conserves adj d hk hsym hnd
    hval hne hd i.toNat _ hinit_nonneg hinit_sum
  refine ⟨mapByKey adj τ, ?_, ?_, ?_⟩
  · unfold computePageRank
    rw [if_neg (not_le.2 hi), if_neg (not_not_intro hd),
      if_neg (not_not_intro hval), if_neg hlen0]
    rw [show (adj.map (fun p => (p.1, 1 / (((keys adj).length : ℚ))))) =
      mapByKey adj (fun _ => 1 / ((keys adj).length : ℚ)) from rfl]
    rw [hloop]
  · intro q hq
    obtain ⟨p, _, rfl⟩ := List.mem_map.1
      (show q ∈ adj.map (fun p => (p.1, τ p.1)) from hq)
    exact hτ1 p.1
  · rw [mapByKey_snd_sum, hτ2]

theorem c6_conservation_amended_witness :
    ∃ m : ScoreList,
      computePageRank [((1 : Int), [(2 : Int)]), (2, [1])] 50 (1 / 2) =
        .ok m ∧ (∀ q ∈ m, 0 ≤ q.2) ∧ (m.map Prod.snd).sum = 1 :=
  c6_conservation_amended [((1 : Int), [(2 : Int)]), (2, [1])] 50 (1 / 2)
    (by decide) (by decide) (by decide) (by decide) (by decide)
    ⟨one_half_pos, one_half_lt_one⟩ (by decide)

/-- Claim C7: the engine is deterministic — it is a pure function of its inputs
(identical inputs give the same term, definitionally), and its output does
not depend on the insertion order of the adjacency entries: for any
permutation of a well-formed adjacency list, the two runs either both fail
with `InvalidInput` or both succeed with score maps that agree exactly on
every node lookup.  Re-running on an unmutated graph is the reflexive
instance.  Modelled from the spec (§4.1, §8) over exact rationals, where
bit-exact reproducibility is exact equality. -/
theorem c7_determinism (adj1 adj2 : List (Int × List Int)) (i : Int) (d : ℚ)
    (hk : (keys adj1).Nodup) (hperm : List.Perm adj1 adj2) :
    ((computePageRank adj1 i d = .error .invalidInput) ↔
      (computePageRank adj2 i d = .error .invalidInput)) ∧
    (∀ m1 m2, computePageRank adj1 i d = .ok m1 →
      computePageRank adj2 i d = .ok m2 →
      ∀ v, alookup m1 v = alookup m2 v) := by
  rcases computePageRank_perm_master adj1 adj2 i d hk hperm with
    ⟨he1, he2⟩ | ⟨τ, ho1, ho2⟩
  · refine ⟨iff_of_true he1 he2, ?_⟩
    intro m1 m2 h1 h2
    rw [he1] at h1
    cases h1
  · constructor
    · constructor
      · intro h
        rw [ho1] at h
        cases h
      · intro h
        rw [ho2] at h
        cases h
    · intro m1 m2 h1 h2 v
      rw [ho1] at h1
      rw [ho2] at h2
      injection h1 with h1
      injection h2 with h2
      rw [← h1, ← h2, alookup_mapByKey, alookup_mapByKey,
        alookup_perm adj1 adj2 hk hperm v]

theorem c7_determinism_witness :
    ((computePageRank [((1 : Int), [(2 : Int)]), (2, [1])] 50 (1 / 2) =
        .error .invalidInput) ↔
      (computePageRank [((2 : Int), [(1 : Int)]), (1, [2])] 50 (1 / 2) =
        .error .invalidInput)) ∧
    (∀ m1 m2,
      computePageRank [((1 : Int), [(2 : Int)]), (2, [1])] 50 (1 / 2) =
        .ok m1 →
      computePageRank [((2 : Int), [(1 : Int)]), (1, [2])] 50 (1 / 2) =
        .ok m2 →
      ∀ v, alookup m1 v = alookup m2 v) :=
  c7_determinism [((1 : Int), [(2 : Int)]), (2, [1])]
    [((2 : Int), [(1 : Int)]), (1, [2])] 50 (1 / 2) (by decide)
    (List.Perm.swap _ _ _)

end RecSystem
